import Mathlib

/-!
Verification of the forward-pass evaluator and UI state operations of the
DNN visualizer (`src/ActivationVisualizer.jsx`, plus the older variant of the
component kept in the repository).

Numbers are modelled as real numbers.  JavaScript's NaN (and the NaN produced
by arithmetic on `undefined`, e.g. an out-of-bounds array read used in `+` or
`*`) is modelled by `none` in the type `JS := Option ℝ`; a thrown `TypeError`
(reading `.length` of `undefined`, indexing into an `undefined` bias row, or
calling an `undefined` activation function) makes the evaluator return `none`
at the top level.
-/

/-- JavaScript numbers: `some r` is a finite real value, `none` stands for NaN
(and for `undefined` used in arithmetic, which JavaScript coerces to NaN). -/
abbrev JS := Option ℝ

/-- JavaScript `+` on `JS`: NaN is absorbing. -/
def jadd : JS → JS → JS
  | some a, some b => some (a + b)
  | _, _ => none

/-- JavaScript `*` on `JS`: NaN is absorbing. -/
def jmul : JS → JS → JS
  | some a, some b => some (a * b)
  | _, _ => none

/-- The record pushed per neuron by `forwardPass`:
`{ z, a: actFn(z), inputs: [...inputVector] }`. -/
structure Neuron where
  z : JS
  a : JS
  inputs : List JS

/-- The `activationFunctions` object of the current component
(`src/ActivationVisualizer.jsx` lines 21–26): a string-keyed lookup returning
`undefined` (`none`) for keys outside the four entries. -/
noncomputable def activationFunctions : String → Option (ℝ → ℝ)
  | "relu" => some fun x => max 0 x
  | "sigmoid" => some fun x => 1 / (1 + Real.exp (-x))
  | "tanh" => some fun x => Real.tanh x
  | "linear" => some fun x => x
  | _ => none

/-- The `availableActivations` list of the component (line 13). -/
def availableActivations : List String := ["relu", "sigmoid", "tanh", "linear"]

/-- `activations[l] || "relu"`: a missing (`undefined`) or empty-string entry
falls back to `"relu"`; every other string is kept (the only falsy string in
JavaScript is the empty one). -/
def actName : Option String → String
  | some s => if s = "" then "relu" else s
  | none => "relu"

/-- The indexed `reduce` inside `forwardPass`:
`Wl[i].reduce((sum, w, idx) => sum + w * inputVector[idx], 0)`, carrying the
running index.  An out-of-bounds read of `inputVector` yields `undefined`,
which behaves as NaN inside `+`/`*`. -/
def dotGo (v : List JS) : List ℝ → ℕ → JS → JS
  | [], _, sum => sum
  | w :: ws, idx, sum => dotGo v ws (idx + 1) (jadd sum (jmul (some w) (v.getD idx none)))

/-- `row.reduce((sum, w, idx) => sum + w * v[idx], 0)`. -/
def dotReduce (row : List ℝ) (v : List JS) : JS := dotGo v row 0 (some 0)

/-- The inner `for (let i = 0; i < Wl.length; i++)` loop of `forwardPass`,
given a present bias row `bl` and activation function `f`:
`z = Wl[i].reduce(...) + bl[i]; output.push({z, a: actFn(z), inputs: [...inputVector]})`.
A missing bias entry (`bl[i]` out of bounds) is `undefined`, i.e. NaN in the
sum; the four activation functions all map NaN to NaN, hence `Option.map`. -/
def layerStep (Wl : List (List ℝ)) (bl : List ℝ) (f : ℝ → ℝ) (v : List JS) : List Neuron :=
  (List.range Wl.length).map fun i =>
    let z := jadd (dotReduce (Wl.getD i []) v) (bl.get? i)
    { z := z, a := z.map f, inputs := v }

/-- One layer of the `forwardPass` loop body.  When `Wl` is empty the inner
loop never runs, so a missing bias row or activation function is never
touched; otherwise reading `bl[i]` on an `undefined` bias row, or calling an
`undefined` activation function, throws a `TypeError` (modelled `none`). -/
def layerOut (Wl : List (List ℝ)) (bl? : Option (List ℝ)) (f? : Option (ℝ → ℝ))
    (v : List JS) : Option (List Neuron) :=
  match Wl with
  | [] => some []
  | _ =>
    match bl?, f? with
    | some bl, some f => some (layerStep Wl bl f v)
    | _, _ => none

/-- The layer loop of the current `forwardPass` (lines 97–115): `l` is the loop
counter, the second argument the number of layers still to process
(`neuronsPerLayer.length - l`), `v` the running `inputVector`.  Reading
`weights[l]` when it is `undefined` throws at the `i < Wl.length` test
(modelled `none`); the activation name is `activations[l] || "relu"`. -/
noncomputable def runLayers (W : List (List (List ℝ))) (B : List (List ℝ)) (A : List String) :
    ℕ → ℕ → List JS → Option (List (List Neuron))
  | _, 0, _ => some []
  | l, n + 1, v =>
    match W.get? l with
    | none => none
    | some Wl =>
      match layerOut Wl (B.get? l) (activationFunctions (actName (A.get? l))) v with
      | none => none
      | some out =>
        match runLayers W B A (l + 1) n (out.map (·.a)) with
        | none => none
        | some rest => some (out :: rest)

/-- `forwardPass` of the current component (lines 97–115): starts from
`inputVector = [x]` and loops `l` from `0` to `neuronsPerLayer.length - 1`,
returning the per-layer list of per-neuron records. -/
noncomputable def forwardPass (neuronsPerLayer : List ℕ) (W : List (List (List ℝ)))
    (B : List (List ℝ)) (A : List String) (x : ℝ) : Option (List (List Neuron)) :=
  runLayers W B A 0 neuronsPerLayer.length [some x]

/-! ## The older variant of the component (`src/unnamed/part_001`)

Its `forwardPass` (lines 37–53) is the same loop, except that the activation
name is `activations[l]` with no `|| "relu"` fallback, and the
`activationFunctions` object has only the `relu`, `sigmoid` and `tanh`
entries. -/

/-- The `activationFunctions` object of the older variant (lines 14–17):
only `relu`, `sigmoid` and `tanh`. -/
noncomputable def activationFunctionsOld : String → Option (ℝ → ℝ)
  | "relu" => some fun x => max 0 x
  | "sigmoid" => some fun x => 1 / (1 + Real.exp (-x))
  | "tanh" => some fun x => Real.tanh x
  | _ => none

/-- The layer loop of the older `forwardPass`: identical to `runLayers` except
for the activation lookup, `activationFunctions[activations[l]]`, which is
`undefined` (and throws when called) when `activations[l]` is missing or not a
key of the table. -/
noncomputable def runLayersOld (W : List (List (List ℝ))) (B : List (List ℝ))
    (A : List String) : ℕ → ℕ → List JS → Option (List (List Neuron))
  | _, 0, _ => some []
  | l, n + 1, v =>
    match W.get? l with
    | none => none
    | some Wl =>
      let f? := match A.get? l with
        | some s => activationFunctionsOld s
        | none => none
      match layerOut Wl (B.get? l) f? v with
      | none => none
      | some out =>
        match runLayersOld W B A (l + 1) n (out.map (·.a)) with
        | none => none
        | some rest => some (out :: rest)

/-- `forwardPass` of the older variant (part_001 lines 37–53). -/
noncomputable def forwardPassOld (neuronsPerLayer : List ℕ) (W : List (List (List ℝ)))
    (B : List (List ℝ)) (A : List String) (x : ℝ) : Option (List (List Neuron)) :=
  runLayersOld W B A 0 neuronsPerLayer.length [some x]

/-! ## The reference algorithm of the specification (§4.1)

These definitions follow the spec's words, to be compared with the evaluator
embedded from the source above. -/

/-- A record of the spec's Forward-Pass Result (§3):
`{inputs: ordered sequence of numbers, linearSum: number, output: number}`. -/
structure SpecNeuron where
  inputs : List ℝ
  linearSum : ℝ
  output : ℝ

/-- Modelled from the spec: the exact numeric semantics of the four activation
functions (§4.1): rectified-linear, logistic-sigmoid, hyperbolic-tangent, and
identity (every name outside the spec's closed enumerated set is mapped to the
identity for totality; those names never occur under the claims'
hypotheses). -/
noncomputable def specActivation : String → ℝ → ℝ
  | "relu" => fun z => max 0 z
  | "sigmoid" => fun z => 1 / (1 + Real.exp (-z))
  | "tanh" => fun z => Real.tanh z
  | _ => fun z => z

/-- Modelled from the spec (§4.1): for each layer `l` in topology order, for
each neuron `i` in the layer, `linearSum = bias[l][i] + Σ_j weight[l][i][j] *
runningVector[j]`, `output = activationFunction(activations[l])(linearSum)`,
record `{inputs: copy of runningVector, linearSum, output}`; then the running
vector becomes that layer's ordered outputs. -/
noncomputable def specLayers (W : List (List (List ℝ))) (B : List (List ℝ))
    (A : List String) : ℕ → List ℕ → List ℝ → List (List SpecNeuron)
  | _, [], _ => []
  | l, size :: rest, v =>
    let recs := (List.range size).map fun i =>
      let ls := (B.getD l []).getD i 0 +
        ∑ j ∈ Finset.range v.length, ((W.getD l []).getD i []).getD j 0 * v.getD j 0
      { inputs := v, linearSum := ls, output := specActivation (A.getD l "relu") ls }
    recs :: specLayers W B A (l + 1) rest (recs.map SpecNeuron.output)

/-- Modelled from the spec (§4.1): the full reference evaluator, starting from
the running vector `[input]`. -/
noncomputable def forwardPassSpec (topology : List ℕ) (W : List (List (List ℝ)))
    (B : List (List ℝ)) (A : List String) (x : ℝ) : List (List SpecNeuron) :=
  specLayers W B A 0 topology [x]

/-- Interprets a spec record as the record the source stores: `z` is the
linear sum, `a` the activated output, `inputs` the copied running vector. -/
def embedNeuron (r : SpecNeuron) : Neuron :=
  { z := some r.linearSum, a := some r.output, inputs := r.inputs.map some }

/-! ## Component state and the UI operations -/

/-- The parameter-shape invariant (spec §3): walking the topology with `prev`
the size of the previous layer (initially `1`, the scalar input), each weight
matrix has `size` rows of length `prev` and each bias vector has length
`size`. -/
def shapesOk : ℕ → List ℕ → List (List (List ℝ)) → List (List ℝ) → Prop
  | _, [], W, B => W = [] ∧ B = []
  | prev, size :: rest, Wl :: W, bl :: B =>
    Wl.length = size ∧ bl.length = size ∧ (∀ row ∈ Wl, row.length = prev) ∧
      shapesOk size rest W B
  | _, _ :: _, _, _ => False

/-- `maxNeurons` of the current component (line 10). -/
def maxNeurons : ℕ := 6

/-- The weight part of `initializeWeights` (lines 30–41): for each layer the
loop pushes a `rows × cols` matrix, with `rows` the layer's size and `cols`
the previous size (starting at `1`); `wr` supplies the values produced by
`randomWeight`. -/
def initW (wr : ℕ → ℕ → ℕ → ℝ) : ℕ → ℕ → List ℕ → List (List (List ℝ))
  | _, _, [] => []
  | l, cols, rows :: rest =>
    ((List.range rows).map fun i => (List.range cols).map fun j => wr l i j)
      :: initW wr (l + 1) rows rest

/-- The bias part of `initializeWeights`: one vector of length `rows` per
layer, values supplied by `br`. -/
def initB (br : ℕ → ℕ → ℝ) : ℕ → List ℕ → List (List ℝ)
  | _, [] => []
  | l, rows :: rest => ((List.range rows).map fun i => br l i) :: initB br (l + 1) rest

/-- `initializeWeights(layers)` (lines 30–41), with the stream of
`randomWeight()` draws abstracted into the oracles `wr` and `br`. -/
def initializeWeights (wr : ℕ → ℕ → ℕ → ℝ) (br : ℕ → ℕ → ℝ) (layers : List ℕ) :
    List (List (List ℝ)) × List (List ℝ) :=
  (initW wr 0 1 layers, initB br 0 layers)

/-- The React state of the component that the claims concern. -/
structure VState where
  neuronsPerLayer : List ℕ
  activations : List String
  weights : List (List (List ℝ))
  biases : List (List ℝ)

/-- The initial state (lines 9, 12, 43): topology `[3, 2]`, activations
`["tanh", "sigmoid"]`, parameters from `initializeWeights`. -/
def initialState (wr : ℕ → ℕ → ℕ → ℝ) (br : ℕ → ℕ → ℝ) : VState :=
  let p := initializeWeights wr br [3, 2]
  { neuronsPerLayer := [3, 2], activations := ["tanh", "sigmoid"],
    weights := p.1, biases := p.2 }

/-- `addLayer` (lines 49–55): refused at 5 layers, otherwise appends a layer
of 2 neurons with activation `"relu"` and regenerates the parameters. -/
def addLayer (wr : ℕ → ℕ → ℕ → ℝ) (br : ℕ → ℕ → ℝ) (s : VState) : VState :=
  if 5 ≤ s.neuronsPerLayer.length then s
  else
    let newLayers := s.neuronsPerLayer ++ [2]
    let p := initializeWeights wr br newLayers
    { neuronsPerLayer := newLayers, activations := s.activations ++ ["relu"],
      weights := p.1, biases := p.2 }

/-- `removeLayer(idx)` (lines 57–64): refused at 1 layer, otherwise filters
index `idx` out of the topology and activations and regenerates the
parameters. -/
def removeLayer (wr : ℕ → ℕ → ℕ → ℝ) (br : ℕ → ℕ → ℝ) (idx : ℕ) (s : VState) : VState :=
  if s.neuronsPerLayer.length ≤ 1 then s
  else
    let newLayers := s.neuronsPerLayer.eraseIdx idx
    let p := initializeWeights wr br newLayers
    { neuronsPerLayer := newLayers, activations := s.activations.eraseIdx idx,
      weights := p.1, biases := p.2 }

/-- `updateNeuronCount(layerIdx, count)` (lines 66–71): overwrites one layer
size (no bound check of its own — the slider constrains `count`) and
regenerates the parameters. -/
def updateNeuronCount (wr : ℕ → ℕ → ℕ → ℝ) (br : ℕ → ℕ → ℝ) (layerIdx count : ℕ)
    (s : VState) : VState :=
  let newLayers := s.neuronsPerLayer.set layerIdx count
  let p := initializeWeights wr br newLayers
  { s with neuronsPerLayer := newLayers, weights := p.1, biases := p.2 }

/-- `regenerateWeights` (line 45). -/
def regenerateWeights (wr : ℕ → ℕ → ℕ → ℝ) (br : ℕ → ℕ → ℝ) (s : VState) : VState :=
  let p := initializeWeights wr br s.neuronsPerLayer
  { s with weights := p.1, biases := p.2 }

/-- `updateWeight(layerIdx, neuronIdx, inputIdx, val)` (lines 73–77): deep
copy with one entry overwritten. -/
def updateWeight (li ni wi : ℕ) (val : ℝ) (s : VState) : VState :=
  { s with weights := s.weights.set li ((s.weights.getD li []).set ni
      (((s.weights.getD li []).getD ni []).set wi val)) }

/-- `updateBias(layerIdx, neuronIdx, val)` (lines 79–83). -/
def updateBias (li ni : ℕ) (val : ℝ) (s : VState) : VState :=
  { s with biases := s.biases.set li ((s.biases.getD li []).set ni val) }

/-- States reachable through the UI operations.  `updateNeuronCount` is
invoked from the slider with `1 ≤ count ≤ maxNeurons` and an existing layer
index; `updateWeight`/`updateBias` are invoked from the parameter editor,
which iterates over the existing entries, so the indices are in bounds. -/
inductive Reach : VState → Prop
  | init (wr : ℕ → ℕ → ℕ → ℝ) (br : ℕ → ℕ → ℝ) : Reach (initialState wr br)
  | add (s : VState) (wr : ℕ → ℕ → ℕ → ℝ) (br : ℕ → ℕ → ℝ) :
      Reach s → Reach (addLayer wr br s)
  | remove (s : VState) (idx : ℕ) (wr : ℕ → ℕ → ℕ → ℝ) (br : ℕ → ℕ → ℝ) :
      Reach s → idx < s.neuronsPerLayer.length → Reach (removeLayer wr br idx s)
  | update (s : VState) (li c : ℕ) (wr : ℕ → ℕ → ℕ → ℝ) (br : ℕ → ℕ → ℝ) :
      Reach s → li < s.neuronsPerLayer.length → 1 ≤ c → c ≤ maxNeurons →
      Reach (updateNeuronCount wr br li c s)
  | regen (s : VState) (wr : ℕ → ℕ → ℕ → ℝ) (br : ℕ → ℕ → ℝ) :
      Reach s → Reach (regenerateWeights wr br s)
  | setw (s : VState) (li ni wi : ℕ) (v : ℝ) :
      Reach s → li < s.weights.length → ni < (s.weights.getD li []).length →
      wi < ((s.weights.getD li []).getD ni []).length → Reach (updateWeight li ni wi v s)
  | setb (s : VState) (li ni : ℕ) (v : ℝ) :
      Reach s → li < s.biases.length → ni < (s.biases.getD li []).length →
      Reach (updateBias li ni v s)

/-! ## Helper lemmas about the dot product and the activation table -/

/-- The record the spec's reference algorithm produces for neuron `i` of a
layer with weight rows `Wl`, bias row `bl`, activation `f` and running vector
`u`. -/
noncomputable def specRec (Wl : List (List ℝ)) (bl : List ℝ) (f : ℝ → ℝ) (u : List ℝ)
    (i : ℕ) : SpecNeuron :=
  { inputs := u,
    linearSum := bl.getD i 0 +
      ∑ j ∈ Finset.range u.length, (Wl.getD i []).getD j 0 * u.getD j 0,
    output := f (bl.getD i 0 +
      ∑ j ∈ Finset.range u.length, (Wl.getD i []).getD j 0 * u.getD j 0) }

/-- Plain real dot product from position `idx`, used to describe `dotGo`. -/
def sdot (u : List ℝ) : List ℝ → ℕ → ℝ
  | [], _ => 0
  | w :: ws, idx => w * u.getD idx 0 + sdot u ws (idx + 1)

theorem dotGo_map_some (u : List ℝ) (row : List ℝ) :
    ∀ (idx : ℕ) (s : ℝ), idx + row.length ≤ u.length →
      dotGo (u.map some) row idx (some s) = some (s + sdot u row idx) := by
  induction row with
  | nil => intro idx s _; simp [dotGo, sdot]
  | cons w ws ih =>
    intro idx s h
    have hlen : ws.length + 1 = (w :: ws).length := rfl
    have hidx : idx < u.length := by rw [← hlen] at h; omega
    have hget : (u.map some).getD idx none = some (u.getD idx 0) := by
      rw [List.getD_eq_getElem _ _ (by simpa using hidx), List.getD_eq_getElem _ _ hidx,
        List.getElem_map]
    simp only [dotGo, hget, jmul, jadd]
    rw [ih (idx + 1) (s + w * u.getD idx 0) (by rw [← hlen] at h; omega)]
    simp only [sdot, Option.some.injEq]
    ring

theorem sdot_eq_sum (u : List ℝ) (row : List ℝ) :
    ∀ idx : ℕ, sdot u row idx =
      ∑ j ∈ Finset.range row.length, row.getD j 0 * u.getD (idx + j) 0 := by
  induction row with
  | nil => intro idx; simp [sdot]
  | cons w ws ih =>
    intro idx
    rw [sdot, ih (idx + 1), List.length_cons, Finset.sum_range_succ']
    simp only [List.getD_cons_succ, List.getD_cons_zero, add_zero]
    rw [add_comm]
    congr 1
    apply Finset.sum_congr rfl
    intro j _
    have harg : idx + 1 + j = idx + (j + 1) := by omega
    rw [harg]

theorem layerOut_some (Wl : List (List ℝ)) (bl : List ℝ) (f : ℝ → ℝ) (v : List JS) :
    layerOut Wl (some bl) (some f) v = some (layerStep Wl bl f v) := by
  cases Wl with
  | nil => simp [layerOut, layerStep]
  | cons h t => rfl

theorem activationFunctions_relu : activationFunctions "relu" = some fun x => max 0 x := rfl

theorem activationFunctions_sigmoid :
    activationFunctions "sigmoid" = some fun x => 1 / (1 + Real.exp (-x)) := rfl

theorem activationFunctions_tanh : activationFunctions "tanh" = some fun x => Real.tanh x := rfl

theorem activationFunctions_linear : activationFunctions "linear" = some fun x => x := rfl

theorem activationFunctions_avail (a : String) (h : a ∈ availableActivations) :
    activationFunctions a = some (specActivation a) := by
  fin_cases h <;> rfl

theorem actName_avail (a : String) (h : a ∈ availableActivations) :
    actName (some a) = a := by
  fin_cases h <;> rfl

theorem activationFunctionsOld_eq (a : String)
    (h : a ∈ (["relu", "sigmoid", "tanh"] : List String)) :
    activationFunctionsOld a = activationFunctions a := by
  fin_cases h <;> rfl

theorem specLayers_cons (W : List (List (List ℝ))) (B : List (List ℝ)) (A : List String)
    (l size : ℕ) (rest : List ℕ) (u : List ℝ) :
    specLayers W B A l (size :: rest) u =
      ((List.range size).map fun i =>
        specRec (W.getD l []) (B.getD l []) (specActivation (A.getD l "relu")) u i)
      :: specLayers W B A (l + 1) rest
        (((List.range size).map fun i =>
          specRec (W.getD l []) (B.getD l []) (specActivation (A.getD l "relu")) u i).map
            SpecNeuron.output) := rfl

theorem layerStep_map_some (Wl : List (List ℝ)) (bl : List ℝ) (f : ℝ → ℝ) (u : List ℝ)
    (hrow : ∀ row ∈ Wl, row.length = u.length) (hb : Wl.length ≤ bl.length) :
    layerStep Wl bl f (u.map some) =
      (List.range Wl.length).map fun i => embedNeuron (specRec Wl bl f u i) := by
  unfold layerStep
  apply List.map_congr_left
  intro i hi
  rw [List.mem_range] at hi
  have hmem : Wl.getD i [] ∈ Wl := by
    rw [List.getD_eq_getElem _ _ hi]; exact List.getElem_mem hi
  have hrowlen : (Wl.getD i []).length = u.length := hrow _ hmem
  have hdot : dotReduce (Wl.getD i []) (u.map some) = some (sdot u (Wl.getD i []) 0) := by
    unfold dotReduce
    rw [dotGo_map_some u _ 0 0 (by omega)]
    norm_num
  have hbi : bl.get? i = some (bl.getD i 0) := by
    have hib : i < bl.length := lt_of_lt_of_le hi hb
    rw [List.get?_eq_get hib, List.getD_eq_getElem _ _ hib]
    rfl
  have hsum : sdot u (Wl.getD i []) 0 =
      ∑ j ∈ Finset.range u.length, (Wl.getD i []).getD j 0 * u.getD j 0 := by
    rw [sdot_eq_sum, hrowlen]
    apply Finset.sum_congr rfl
    intro j _
    rw [zero_add]
  simp only [hdot, hbi, jadd, Option.map_some', embedNeuron, specRec, Neuron.mk.injEq,
    Option.some.injEq, hsum]
  exact ⟨add_comm _ _, by rw [add_comm], trivial⟩

theorem runLayers_shift (Wl : List (List ℝ)) (W : List (List (List ℝ))) (bl : List ℝ)
    (B : List (List ℝ)) (A : List String) :
    ∀ (n l : ℕ) (v : List JS),
      runLayers (Wl :: W) (bl :: B) A (l + 1) n v = runLayers W B A.tail l n v := by
  intro n
  induction n with
  | zero => intro l v; rfl
  | succ n ih =>
    intro l v
    have hA : A.get? (l + 1) = A.tail.get? l := by
      cases A with
      | nil => rfl
      | cons a A' => rfl
    simp only [runLayers, List.get?_cons_succ, hA, ih]

theorem specLayers_shift (Wl : List (List ℝ)) (W : List (List (List ℝ))) (bl : List ℝ)
    (B : List (List ℝ)) (a : String) (A : List String) :
    ∀ (topo : List ℕ) (l : ℕ) (u : List ℝ),
      specLayers (Wl :: W) (bl :: B) (a :: A) (l + 1) topo u = specLayers W B A l topo u := by
  intro topo
  induction topo with
  | nil => intro l u; rfl
  | cons size rest ih =>
    intro l u
    simp only [specLayers, List.getD_cons_succ, ih]

theorem map_a_embedNeuron (l : List ℕ) (g : ℕ → SpecNeuron) :
    ((l.map fun i => embedNeuron (g i)).map fun nr => nr.a) =
      ((l.map fun i => g i).map SpecNeuron.output).map some := by
  simp [embedNeuron, Function.comp]

theorem runLayers_eq_spec (topo : List ℕ) :
    ∀ (W : List (List (List ℝ))) (B : List (List ℝ)) (A : List String) (u : List ℝ),
      shapesOk u.length topo W B → A.length = topo.length →
      (∀ s ∈ A, s ∈ availableActivations) →
      runLayers W B A 0 topo.length (u.map some) =
        some ((specLayers W B A 0 topo u).map (List.map embedNeuron)) := by
  induction topo with
  | nil =>
    intro W B A u hsh _ _
    have hW : W = [] := hsh.1
    have hB : B = [] := hsh.2
    subst hW hB
    rfl
  | cons size rest ih =>
    intro W B A u hsh hAlen hAmem
    cases W with
    | nil => exact hsh.elim
    | cons Wl W' =>
    cases B with
    | nil => exact hsh.elim
    | cons bl B' =>
    cases A with
    | nil => exact absurd hAlen (by simp)
    | cons a A' =>
    obtain ⟨hWl, hbl, hrow, hrest⟩ := hsh
    have ha : a ∈ availableActivations := hAmem a (List.mem_cons_self a A')
    have hA'mem : ∀ s ∈ A', s ∈ availableActivations := fun s hs =>
      hAmem s (List.mem_cons_of_mem a hs)
    have hAlen' : A'.length = rest.length := by simpa using hAlen
    have hblen : Wl.length ≤ bl.length := le_of_eq (hWl.trans hbl.symm)
    have hstep := layerStep_map_some Wl bl (specActivation a) u hrow hblen
    rw [hWl] at hstep
    have hu'len : (((List.range size).map fun i =>
        specRec Wl bl (specActivation a) u i).map SpecNeuron.output).length = size := by
      simp
    have hrec := ih W' B' A' (((List.range size).map fun i =>
        specRec Wl bl (specActivation a) u i).map SpecNeuron.output)
      (by rw [hu'len]; exact hrest) hAlen' hA'mem
    simp only [List.length_cons, runLayers, List.get?_cons_zero, actName_avail a ha,
      activationFunctions_avail a ha, layerOut_some, hstep]
    rw [map_a_embedNeuron, runLayers_shift, List.tail_cons, hrec,
      specLayers_cons, specLayers_shift]
    simp only [List.getD_cons_zero, List.map_cons, List.map_map, Function.comp_def]

theorem forwardPass_eq_spec (topo : List ℕ) (W : List (List (List ℝ))) (B : List (List ℝ))
    (A : List String) (x : ℝ) (hsh : shapesOk 1 topo W B) (hAlen : A.length = topo.length)
    (hAmem : ∀ s ∈ A, s ∈ availableActivations) :
    forwardPass topo W B A x =
      some ((forwardPassSpec topo W B A x).map (List.map embedNeuron)) := by
  have h := runLayers_eq_spec topo W B A [x] hsh hAlen hAmem
  exact h

theorem runLayers_congrA (W : List (List (List ℝ))) (B : List (List ℝ))
    (A₁ A₂ : List String) (h : ∀ l, actName (A₁.get? l) = actName (A₂.get? l)) :
    ∀ (n l : ℕ) (v : List JS), runLayers W B A₁ l n v = runLayers W B A₂ l n v := by
  intro n
  induction n with
  | zero => intro l v; rfl
  | succ n ih =>
    intro l v
    simp only [runLayers, h, ih]

theorem runLayersOld_eq (W : List (List (List ℝ))) (B : List (List ℝ)) (A : List String)
    (hmem : ∀ s ∈ A, s ∈ (["relu", "sigmoid", "tanh"] : List String)) :
    ∀ (n l : ℕ) (v : List JS), l + n ≤ A.length →
      runLayersOld W B A l n v = runLayers W B A l n v := by
  intro n
  induction n with
  | zero => intro l v _; rfl
  | succ n ih =>
    intro l v hln
    have hl : l < A.length := by omega
    obtain ⟨s, hs⟩ : ∃ s, A.get? l = some s := ⟨A[l], List.get?_eq_get hl⟩
    have h3 : s ∈ (["relu", "sigmoid", "tanh"] : List String) := hmem s (List.get?_mem hs)
    have hname : actName (some s) = s := by fin_cases h3 <;> rfl
    have hfun : activationFunctionsOld s = activationFunctions s :=
      activationFunctionsOld_eq s h3
    have ihh : ∀ w : List JS, runLayersOld W B A (l + 1) n w = runLayers W B A (l + 1) n w :=
      fun w => ih (l + 1) w (by omega)
    simp only [runLayersOld, runLayers, hs, hname, hfun, ihh]

theorem runLayers_total (W : List (List (List ℝ))) (B : List (List ℝ)) (A : List String)
    (hA : ∀ s ∈ A, s ∈ availableActivations) :
    ∀ (n l : ℕ) (v : List JS), l + n ≤ W.length → l + n ≤ B.length →
      ∃ out, runLayers W B A l n v = some out := by
  intro n
  induction n with
  | zero => intro l v _ _; exact ⟨[], rfl⟩
  | succ n ih =>
    intro l v hW hB
    obtain ⟨Wl, hWl⟩ : ∃ Wl, W.get? l = some Wl := ⟨_, List.get?_eq_get (by omega)⟩
    obtain ⟨bl, hbl⟩ : ∃ bl, B.get? l = some bl := ⟨_, List.get?_eq_get (by omega)⟩
    obtain ⟨f, hf⟩ : ∃ f, activationFunctions (actName (A.get? l)) = some f := by
      cases hAl : A.get? l with
      | none => exact ⟨_, rfl⟩
      | some s =>
        have hsmem : s ∈ availableActivations := hA s (List.get?_mem hAl)
        fin_cases hsmem <;> exact ⟨_, rfl⟩
    obtain ⟨restOut, hrest⟩ := ih (l + 1) ((layerStep Wl bl f v).map fun nr => nr.a)
      (by omega) (by omega)
    exact ⟨layerStep Wl bl f v :: restOut,
      by simp only [runLayers, hWl, hbl, hf, layerOut_some, hrest]⟩

theorem specLayers_length (W : List (List (List ℝ))) (B : List (List ℝ)) (A : List String) :
    ∀ (topo : List ℕ) (l : ℕ) (u : List ℝ),
      (specLayers W B A l topo u).length = topo.length := by
  intro topo
  induction topo with
  | nil => intro l u; rfl
  | cons size rest ih => intro l u; simp only [specLayers, List.length_cons, ih]

theorem specLayers_output (W : List (List (List ℝ))) (B : List (List ℝ)) (A : List String) :
    ∀ (topo : List ℕ) (l k : ℕ) (u : List ℝ), k < topo.length →
      ∀ r ∈ (specLayers W B A l topo u).getD k [],
        r.output = specActivation (A.getD (l + k) "relu") r.linearSum := by
  intro topo
  induction topo with
  | nil => intro l k u hk; simp at hk
  | cons size rest ih =>
    intro l k u hk r hr
    cases k with
    | zero =>
      simp only [specLayers, List.getD_cons_zero] at hr
      obtain ⟨i, _, rfl⟩ := List.mem_map.mp hr
      simp only [add_zero]
    | succ k =>
      simp only [specLayers, List.getD_cons_succ] at hr
      have hk' : k < rest.length := by simpa using hk
      have := ih (l + 1) k _ hk' r hr
      have harg : l + 1 + k = l + (k + 1) := by omega
      rw [harg] at this
      exact this

/-! ## Helper lemmas about the state machine -/

theorem initW_initB_shapesOk (wr : ℕ → ℕ → ℕ → ℝ) (br : ℕ → ℕ → ℝ) :
    ∀ (layers : List ℕ) (l prev : ℕ),
      shapesOk prev layers (initW wr l prev layers) (initB br l layers) := by
  intro layers
  induction layers with
  | nil => intro l prev; exact ⟨rfl, rfl⟩
  | cons rows rest ih =>
    intro l prev
    refine ⟨by simp [initW], by simp [initB], ?_, ih (l + 1) rows⟩
    intro row hrow
    obtain ⟨i, _, rfl⟩ := List.mem_map.mp hrow
    simp

theorem shapesOk_updateW :
    ∀ (topo : List ℕ) (prev : ℕ) (W : List (List (List ℝ))) (B : List (List ℝ))
      (li ni wi : ℕ) (v : ℝ),
      shapesOk prev topo W B → li < W.length → ni < (W.getD li []).length →
      shapesOk prev topo
        (W.set li ((W.getD li []).set ni (((W.getD li []).getD ni []).set wi v))) B := by
  intro topo
  induction topo with
  | nil =>
    intro prev W B li ni wi v hsh _ _
    rw [hsh.1]
    exact ⟨rfl, hsh.2⟩
  | cons size rest ih =>
    intro prev W B li ni wi v hsh hli hni
    cases W with
    | nil => exact hsh.elim
    | cons Wl W' =>
    cases B with
    | nil => exact hsh.elim
    | cons bl B' =>
    obtain ⟨hWl, hbl, hrow, hrest⟩ := hsh
    cases li with
    | zero =>
      simp only [List.getD_cons_zero, List.set_cons_zero] at hni ⊢
      refine ⟨by rw [List.length_set]; exact hWl, hbl, ?_, hrest⟩
      intro row hrowmem
      rcases List.mem_or_eq_of_mem_set hrowmem with hmem | heq
      · exact hrow row hmem
      · subst heq
        rw [List.length_set]
        exact hrow _ (by rw [List.getD_eq_getElem _ _ hni]; exact List.getElem_mem hni)
    | succ li =>
      simp only [List.getD_cons_succ, List.set_cons_succ] at hni ⊢
      have hli' : li < W'.length := by simpa using hli
      exact ⟨hWl, hbl, hrow, ih size W' B' li ni wi v hrest hli' hni⟩

theorem shapesOk_updateB :
    ∀ (topo : List ℕ) (prev : ℕ) (W : List (List (List ℝ))) (B : List (List ℝ))
      (li ni : ℕ) (v : ℝ),
      shapesOk prev topo W B → li < B.length → ni < (B.getD li []).length →
      shapesOk prev topo W (B.set li ((B.getD li []).set ni v)) := by
  intro topo
  induction topo with
  | nil =>
    intro prev W B li ni v hsh _ _
    rw [hsh.2]
    exact ⟨hsh.1, rfl⟩
  | cons size rest ih =>
    intro prev W B li ni v hsh hli hni
    cases W with
    | nil => exact hsh.elim
    | cons Wl W' =>
    cases B with
    | nil => exact hsh.elim
    | cons bl B' =>
    obtain ⟨hWl, hbl, hrow, hrest⟩ := hsh
    cases li with
    | zero =>
      simp only [List.getD_cons_zero, List.set_cons_zero] at hni ⊢
      exact ⟨hWl, by rw [List.length_set]; exact hbl, hrow, hrest⟩
    | succ li =>
      simp only [List.getD_cons_succ, List.set_cons_succ] at hni ⊢
      have hli' : li < B'.length := by simpa using hli
      exact ⟨hWl, hbl, hrow, ih size W' B' li ni v hrest hli' hni⟩

theorem reach_shapesOk (s : VState) (h : Reach s) :
    shapesOk 1 s.neuronsPerLayer s.weights s.biases := by
  induction h with
  | init wr br => exact initW_initB_shapesOk wr br [3, 2] 0 1
  | add s wr br _ ih =>
    unfold addLayer
    split_ifs with hc
    · exact ih
    · exact initW_initB_shapesOk wr br (s.neuronsPerLayer ++ [2]) 0 1
  | remove s idx wr br _ _ ih =>
    unfold removeLayer
    split_ifs with hc
    · exact ih
    · exact initW_initB_shapesOk wr br (s.neuronsPerLayer.eraseIdx idx) 0 1
  | update s li c wr br _ _ _ _ ih =>
    exact initW_initB_shapesOk wr br (s.neuronsPerLayer.set li c) 0 1
  | regen s wr br _ ih =>
    exact initW_initB_shapesOk wr br s.neuronsPerLayer 0 1
  | setw s li ni wi v _ hli hni _ ih =>
    exact shapesOk_updateW s.neuronsPerLayer 1 s.weights s.biases li ni wi v ih hli hni
  | setb s li ni v _ hli hni ih =>
    exact shapesOk_updateB s.neuronsPerLayer 1 s.weights s.biases li ni v ih hli hni

theorem reach_topoOk (s : VState) (h : Reach s) :
    1 ≤ s.neuronsPerLayer.length ∧ s.neuronsPerLayer.length ≤ 5 ∧
      ∀ n ∈ s.neuronsPerLayer, 1 ≤ n ∧ n ≤ 8 := by
  induction h with
  | init wr br =>
    refine ⟨by simp [initialState], by simp [initialState], ?_⟩
    intro n hn
    simp only [initialState] at hn
    fin_cases hn <;> omega
  | add s wr br _ ih =>
    unfold addLayer
    split_ifs with hc
    · exact ih
    · refine ⟨by simp, by simp; omega, ?_⟩
      intro n hn
      rcases List.mem_append.mp hn with hmem | hmem
      · exact ih.2.2 n hmem
      · simp only [List.mem_singleton] at hmem
        subst hmem
        omega
  | remove s idx wr br _ hidx ih =>
    unfold removeLayer
    split_ifs with hc
    · exact ih
    · refine ⟨?_, ?_, ?_⟩
      · rw [List.length_eraseIdx_of_lt hidx]; omega
      · rw [List.length_eraseIdx_of_lt hidx]; omega
      · intro n hn
        exact ih.2.2 n ((List.eraseIdx_sublist s.neuronsPerLayer idx).mem hn)
  | update s li c wr br _ hli h1 h6 ih =>
    refine ⟨?_, ?_, ?_⟩
    · show 1 ≤ (s.neuronsPerLayer.set li c).length
      rw [List.length_set]; exact ih.1
    · show (s.neuronsPerLayer.set li c).length ≤ 5
      rw [List.length_set]; exact ih.2.1
    · intro n hn
      rcases List.mem_or_eq_of_mem_set hn with hmem | heq
      · exact ih.2.2 n hmem
      · subst heq
        unfold maxNeurons at h6
        omega
  | regen s wr br _ ih => exact ih
  | setw s li ni wi v _ _ _ _ ih => exact ih
  | setb s li ni v _ _ _ ih => exact ih

theorem specActivation_sigmoid :
    specActivation "sigmoid" = fun z => 1 / (1 + Real.exp (-z)) := rfl

/-! ## The claims -/

/-- C1: For every input scalar, topology, parameter set with shapes matching
the topology, and per-layer activation selection, `forwardPass` follows the
reference algorithm of the spec (§4.1): it returns exactly the spec's ordered
per-layer, per-neuron sequence of `{inputs, linearSum, output}` records, with
`z` the linear sum and `a` the activated output. -/
theorem c1_forwardPass_follows_reference (topo : List ℕ) (W : List (List (List ℝ)))
    (B : List (List ℝ)) (A : List String) (x : ℝ)
    (hsh : shapesOk 1 topo W B) (hAlen : A.length = topo.length)
    (hAmem : ∀ s ∈ A, s ∈ availableActivations) :
    forwardPass topo W B A x =
      some ((forwardPassSpec topo W B A x).map (List.map embedNeuron)) :=
  forwardPass_eq_spec topo W B A x hsh hAlen hAmem

/-- Witness for C1 at topology `[1]`, weight `[[2]]`, bias `[1]`, identity
activation, input `3`. -/
theorem c1_forwardPass_follows_reference_witness :
    shapesOk 1 [1] [[[2]]] [[(1 : ℝ)]] ∧
      (["linear"] : List String).length = ([1] : List ℕ).length ∧
      (∀ s ∈ (["linear"] : List String), s ∈ availableActivations) ∧
      forwardPass [1] [[[2]]] [[(1 : ℝ)]] ["linear"] 3 =
        some ((forwardPassSpec [1] [[[2]]] [[(1 : ℝ)]] ["linear"] 3).map
          (List.map embedNeuron)) := by
  have h1 : shapesOk 1 [1] [[[2]]] [[(1 : ℝ)]] := by
    refine ⟨rfl, rfl, ?_, rfl, rfl⟩
    intro row hr
    fin_cases hr
    rfl
  have h3 : ∀ s ∈ (["linear"] : List String), s ∈ availableActivations := by
    intro s hs
    fin_cases hs
    decide
  exact ⟨h1, rfl, h3,
    c1_forwardPass_follows_reference [1] [[[2]]] [[(1 : ℝ)]] ["linear"] 3 h1 rfl h3⟩

/-- C2: the four activation functions have exactly the spec's semantics:
`relu` is `max(0, z)`, `sigmoid` is `1 / (1 + e^(-z))`, `tanh` is the
hyperbolic tangent, and the identity is registered under the name
`"linear"`. -/
theorem c2_activation_semantics (z : ℝ) :
    (activationFunctions "relu").map (fun f => f z) = some (max 0 z) ∧
    (activationFunctions "sigmoid").map (fun f => f z) = some (1 / (1 + Real.exp (-z))) ∧
    (activationFunctions "tanh").map (fun f => f z) = some (Real.tanh z) ∧
    (activationFunctions "linear").map (fun f => f z) = some z :=
  ⟨rfl, rfl, rfl, rfl⟩

/-- Counterexample to C3: a shape-mismatched call can return a perfectly
normal Forward-Pass Result.  With one layer whose single weight row `[]` is
shorter than the running vector `[3]` (lengths `0 ≠ 1`), `forwardPass`
completes and returns the ordinary record `{z = 7, a = 7}`; and with a row
`[1, 1]` longer than the running vector it also completes, returning a record
whose `z` and `a` are NaN (`none`) instead of failing. -/
theorem c3_counterexample :
    ([] : List ℝ).length ≠ ([some (3 : ℝ)] : List JS).length ∧
    forwardPass [1] [[([] : List ℝ)]] [[(7 : ℝ)]] ["linear"] 3 =
      some [[{ z := some 7, a := some 7, inputs := [some 3] }]] ∧
    forwardPass [1] [[[1, 1]]] [[(0 : ℝ)]] ["linear"] 3 =
      some [[{ z := none, a := none, inputs := [some 3] }]] := by
  refine ⟨by simp, ?_, ?_⟩ <;>
    simp [forwardPass, runLayers, layerOut, layerStep, dotReduce, dotGo, jadd, jmul, actName,
      activationFunctions_linear, List.range_succ]

/-- C3 (amended): a weight-row/running-vector length mismatch does not make
the evaluator fail.  Whenever each referenced layer's weight matrix and bias
vector exist and the activation names are drawn from the table, `forwardPass`
returns a result — regardless of the row lengths; a row longer than the
running vector merely yields NaN entries and a shorter row silently ignores
the missing inputs (see the counterexample). -/
theorem c3_amended_no_failure (topo : List ℕ) (W : List (List (List ℝ)))
    (B : List (List ℝ)) (A : List String) (x : ℝ)
    (hW : topo.length ≤ W.length) (hB : topo.length ≤ B.length)
    (hA : ∀ s ∈ A, s ∈ availableActivations) :
    ∃ out, forwardPass topo W B A x = some out :=
  runLayers_total W B A hA topo.length 0 [some x] (by omega) (by omega)

/-- Witness for the amended C3 on the mismatched input of the
counterexample. -/
theorem c3_amended_no_failure_witness :
    ([1] : List ℕ).length ≤ ([[[1, 1]]] : List (List (List ℝ))).length ∧
      ([1] : List ℕ).length ≤ ([[(0 : ℝ)]] : List (List ℝ)).length ∧
      (∀ s ∈ (["linear"] : List String), s ∈ availableActivations) ∧
      ∃ out, forwardPass [1] [[[1, 1]]] [[(0 : ℝ)]] ["linear"] 3 = some out := by
  have hA : ∀ s ∈ (["linear"] : List String), s ∈ availableActivations := by
    intro s hs
    fin_cases hs
    decide
  exact ⟨by decide, by decide, hA,
    c3_amended_no_failure [1] [[[1, 1]]] [[(0 : ℝ)]] ["linear"] 3 (by decide) (by decide) hA⟩

/-- C4: in every state reachable through the UI operations the topology has
between 1 and 5 layers and every layer size lies between 1 and 8 (the current
source even caps sizes at `maxNeurons = 6`, which implies the claimed bound
of 8). -/
theorem c4_topology_bounds (s : VState) (h : Reach s) :
    1 ≤ s.neuronsPerLayer.length ∧ s.neuronsPerLayer.length ≤ 5 ∧
      ∀ n ∈ s.neuronsPerLayer, 1 ≤ n ∧ n ≤ 8 :=
  reach_topoOk s h

/-- Witness for C4 at the initial state (with the zero random stream). -/
theorem c4_topology_bounds_witness :
    Reach (initialState (fun _ _ _ => 0) (fun _ _ => 0)) ∧
      (1 ≤ (initialState (fun _ _ _ => 0) (fun _ _ => 0)).neuronsPerLayer.length ∧
        (initialState (fun _ _ _ => 0) (fun _ _ => 0)).neuronsPerLayer.length ≤ 5 ∧
        ∀ n ∈ (initialState (fun _ _ _ => 0) (fun _ _ => 0)).neuronsPerLayer,
          1 ≤ n ∧ n ≤ 8) :=
  ⟨Reach.init _ _, c4_topology_bounds _ (Reach.init _ _)⟩

/-- C5: in every reachable state — hence after the initial creation and after
every `addLayer`, `removeLayer`, `updateNeuronCount` (and also after weight
and bias edits and regeneration) — the parameter shapes match the topology:
layer `l` has a weight matrix of `size l` rows, each of length `size (l-1)`
(with the implicit input layer of size 1), and a bias vector of length
`size l`. -/
theorem c5_shapes_match_topology (s : VState) (h : Reach s) :
    shapesOk 1 s.neuronsPerLayer s.weights s.biases :=
  reach_shapesOk s h

/-- Witness for C5 at the initial state. -/
theorem c5_shapes_match_topology_witness :
    Reach (initialState (fun _ _ _ => 0) (fun _ _ => 0)) ∧
      shapesOk 1 (initialState (fun _ _ _ => 0) (fun _ _ => 0)).neuronsPerLayer
        (initialState (fun _ _ _ => 0) (fun _ _ => 0)).weights
        (initialState (fun _ _ _ => 0) (fun _ _ => 0)).biases :=
  ⟨Reach.init _ _, c5_shapes_match_topology _ (Reach.init _ _)⟩

/-- C6: for topology `[1]` with a single weight `w`, bias `b` and the
identity activation, the sole neuron's linear sum and output both equal
`w*x + b` for every input `x`; in particular, weight `2`, bias `0.5` and
input `3` give linear sum `6.5` and output `6.5`. -/
theorem c6_single_neuron_identity :
    (∀ w b x : ℝ, forwardPass [1] [[[w]]] [[b]] ["linear"] x =
      some [[{ z := some (w * x + b), a := some (w * x + b), inputs := [some x] }]]) ∧
    forwardPass [1] [[[2]]] [[(0.5 : ℝ)]] ["linear"] 3 =
      some [[{ z := some 6.5, a := some 6.5, inputs := [some 3] }]] := by
  constructor
  · intro w b x
    simp [forwardPass, runLayers, layerOut, layerStep, dotReduce, dotGo, jadd, jmul, actName,
      activationFunctions_linear, List.range_succ]
  · simp [forwardPass, runLayers, layerOut, layerStep, dotReduce, dotGo, jadd, jmul, actName,
      activationFunctions_linear, List.range_succ]
    norm_num

/-- C7: for topology `[1, 1]` with layer-1 weight `[[1]]`, bias `[0]`, relu,
and layer-2 weight `[[-1]]`, bias `[0]`, relu, input `5` yields layer-1
output `5` and layer-2 linear sum `-5` with output `0` — layer 2 consumes
layer 1's activated output. -/
theorem c7_two_layer_relu :
    forwardPass [1, 1] [[[1]], [[-1]]] [[(0 : ℝ)], [0]] ["relu", "relu"] 5 =
      some [[{ z := some 5, a := some 5, inputs := [some 5] }],
        [{ z := some (-5), a := some 0, inputs := [some 5] }]] := by
  simp [forwardPass, runLayers, layerOut, layerStep, dotReduce, dotGo, jadd, jmul, actName,
    activationFunctions_relu, List.range_succ]

/-- C8: on every well-formed input, the output of every neuron in a layer
whose activation is the logistic sigmoid lies strictly in the open interval
`(0, 1)`. -/
theorem c8_sigmoid_output_open_unit (topo : List ℕ) (W : List (List (List ℝ)))
    (B : List (List ℝ)) (A : List String) (x : ℝ) (res : List (List Neuron))
    (hsh : shapesOk 1 topo W B) (hAlen : A.length = topo.length)
    (hAmem : ∀ s ∈ A, s ∈ availableActivations)
    (hres : forwardPass topo W B A x = some res)
    (l : ℕ) (hl : l < topo.length) (hsig : A.getD l "relu" = "sigmoid")
    (nr : Neuron) (hnr : nr ∈ res.getD l []) :
    ∃ r, nr.a = some r ∧ 0 < r ∧ r < 1 := by
  have heq := forwardPass_eq_spec topo W B A x hsh hAlen hAmem
  rw [hres] at heq
  have hres' : res = (forwardPassSpec topo W B A x).map (List.map embedNeuron) :=
    Option.some_injective _ heq
  subst hres'
  have hlen : (forwardPassSpec topo W B A x).length = topo.length :=
    specLayers_length W B A topo 0 [x]
  have hl' : l < (forwardPassSpec topo W B A x).length := by rw [hlen]; exact hl
  have hgetd : ((forwardPassSpec topo W B A x).map (List.map embedNeuron)).getD l [] =
      List.map embedNeuron ((forwardPassSpec topo W B A x).getD l []) := by
    rw [List.getD_eq_getElem _ _ (by simpa using hl'), List.getD_eq_getElem _ _ hl',
      List.getElem_map]
  rw [hgetd] at hnr
  obtain ⟨r, hrmem, rfl⟩ := List.mem_map.mp hnr
  have hout := specLayers_output W B A topo 0 l [x] hl r hrmem
  rw [zero_add, hsig, specActivation_sigmoid] at hout
  refine ⟨r.output, rfl, ?_, ?_⟩
  · rw [hout]
    positivity
  · rw [hout, div_lt_one (by positivity)]
    have := Real.exp_pos (-r.linearSum)
    linarith

/-- Witness for C8: topology `[1]`, weight `[[0]]`, bias `[0]`, sigmoid,
input `10` — the single neuron's output is `1/2 ∈ (0, 1)`. -/
theorem c8_sigmoid_output_open_unit_witness :
    shapesOk 1 [1] [[[0]]] [[(0 : ℝ)]] ∧
      forwardPass [1] [[[0]]] [[(0 : ℝ)]] ["sigmoid"] 10 =
        some [[{ z := some 0, a := some (1 / 2), inputs := [some 10] }]] ∧
      ∃ r, ({ z := some 0, a := some (1 / 2), inputs := [some 10] } : Neuron).a = some r ∧
        0 < r ∧ r < 1 := by
  have h1 : shapesOk 1 [1] [[[0]]] [[(0 : ℝ)]] := by
    refine ⟨rfl, rfl, ?_, rfl, rfl⟩
    intro row hr
    fin_cases hr
    rfl
  have h3 : ∀ s ∈ (["sigmoid"] : List String), s ∈ availableActivations := by
    intro s hs
    fin_cases hs
    decide
  have hres : forwardPass [1] [[[0]]] [[(0 : ℝ)]] ["sigmoid"] 10 =
      some [[{ z := some 0, a := some (1 / 2), inputs := [some 10] }]] := by
    simp [forwardPass, runLayers, layerOut, layerStep, dotReduce, dotGo, jadd, jmul, actName,
      activationFunctions_sigmoid, List.range_succ]
    norm_num [Real.exp_zero]
  refine ⟨h1, hres, ?_⟩
  exact c8_sigmoid_output_open_unit [1] [[[0]]] [[(0 : ℝ)]] ["sigmoid"] 10
    [[{ z := some 0, a := some (1 / 2), inputs := [some 10] }]] h1 rfl h3 hres 0
    (by decide) rfl _ (by simp)

/-- C9: a missing (`undefined`) or empty activation entry does not make
`forwardPass` fail: the layer silently falls back to relu.  An entirely
missing selection behaves exactly like an all-relu selection, and
normalizing every empty entry to `"relu"` leaves the result unchanged. -/
theorem c9_missing_activation_defaults_to_relu (topo : List ℕ) (W : List (List (List ℝ)))
    (B : List (List ℝ)) (x : ℝ) :
    (forwardPass topo W B [] x =
      forwardPass topo W B (List.replicate topo.length "relu") x) ∧
    ∀ A : List String,
      forwardPass topo W B (A.map fun s => if s = "" then "relu" else s) x =
        forwardPass topo W B A x := by
  constructor
  · apply runLayers_congrA
    intro l
    cases hl : (List.replicate topo.length "relu").get? l with
    | none => rfl
    | some s =>
      have hs : s = "relu" := List.eq_of_mem_replicate (List.get?_mem hl)
      subst hs
      rfl
  · intro A
    apply runLayers_congrA
    intro l
    rw [List.get?_map]
    cases A.get? l with
    | none => rfl
    | some s =>
      by_cases hs : s = ""
      · subst hs
        rfl
      · simp [actName, hs]

/-- C10: the two `forwardPass` implementations in the repository (the current
component's and the older variant's) are extensionally equal whenever the
parameter shapes match the topology and the per-layer activation selection is
drawn from the older table `{relu, sigmoid, tanh}`. -/
theorem c10_old_new_forwardPass_equal (topo : List ℕ) (W : List (List (List ℝ)))
    (B : List (List ℝ)) (A : List String) (x : ℝ)
    (hsh : shapesOk 1 topo W B) (hAlen : A.length = topo.length)
    (hAmem : ∀ s ∈ A, s ∈ (["relu", "sigmoid", "tanh"] : List String)) :
    forwardPassOld topo W B A x = forwardPass topo W B A x :=
  runLayersOld_eq W B A hAmem topo.length 0 [some x] (by omega)

/-- Witness for C10 at topology `[1]`, weight `[[1]]`, bias `[0]`, tanh,
input `2`. -/
theorem c10_old_new_forwardPass_equal_witness :
    shapesOk 1 [1] [[[1]]] [[(0 : ℝ)]] ∧
      (∀ s ∈ (["tanh"] : List String), s ∈ (["relu", "sigmoid", "tanh"] : List String)) ∧
      forwardPassOld [1] [[[1]]] [[(0 : ℝ)]] ["tanh"] 2 =
        forwardPass [1] [[[1]]] [[(0 : ℝ)]] ["tanh"] 2 := by
  have h1 : shapesOk 1 [1] [[[1]]] [[(0 : ℝ)]] := by
    refine ⟨rfl, rfl, ?_, rfl, rfl⟩
    intro row hr
    fin_cases hr
    rfl
  have h3 : ∀ s ∈ (["tanh"] : List String), s ∈ (["relu", "sigmoid", "tanh"] : List String) := by
    intro s hs
    fin_cases hs
    decide
  exact ⟨h1, h3,
    c10_old_new_forwardPass_equal [1] [[[1]]] [[(0 : ℝ)]] ["tanh"] 2 h1 rfl h3⟩
